import Mathlib

/-!
# Verification of the xelis wallet payload codec and transaction builder

Shallow embedding of `src/xelis_common/src/api/mod.rs` (the `DataType` /
`DataValue` / `DataElement` codec) and
`src/xelis_wallet/src/transaction_builder.rs` (the `TransactionBuilder`),
together with proofs of the specified properties.

Machine bytes are modelled as `Fin 256`; byte streams as `List Byte`.
Readers follow the source's `Reader` contract: they consume a prefix of the
stream and return the decoded value together with the unconsumed tail, or a
`ReaderError`.
-/

set_option maxHeartbeats 1000000

namespace Xelis

/-- A single octet, as produced by the Rust `Writer` (`u8`). -/
abbrev Byte := Fin 256

/-- Truncating-cast of a `Nat` to a byte (Rust `as u8`, i.e. `% 256`). -/
def byte (n : Nat) : Byte := ⟨n % 256, Nat.mod_lt _ (by norm_num)⟩

/-- Modelled from the spec: the shared byte-cursor `ReaderError`
(`crate::serializer`, not under `src/`): a decode error is either a
truncated-input error (`InvalidSize`) or a malformed-value error
(`InvalidValue`). -/
inductive ReaderError where
  | InvalidSize
  | InvalidValue
  deriving DecidableEq, Repr

/-- Big-endian fixed-width encoding of a natural number on `w` bytes
(modelled from the spec: "integers are fixed-width ... per the shared cursor
contract"; the width is the integer's byte width, the byte order is fixed). -/
def toBE : Nat → Nat → List Byte
  | 0, _ => []
  | w + 1, n => byte (n / 256 ^ w) :: toBE w n

/-- Big-endian decoding of a byte list back to a natural number. -/
def fromBE : List Byte → Nat
  | [] => 0
  | b :: t => b.val * 256 ^ t.length + fromBE t

/-- Read exactly `w` bytes off the front of the stream; fails with
`InvalidSize` when the stream is shorter (the cursor contract's behaviour on
truncated input). -/
def readBytes (w : Nat) (s : List Byte) :
    Except ReaderError (List Byte × List Byte) :=
  if w ≤ s.length then .ok (s.take w, s.drop w) else .error .InvalidSize

/-- `Reader::read_u8`. -/
def read_u8 (s : List Byte) : Except ReaderError (Byte × List Byte) :=
  match s with
  | [] => .error .InvalidSize
  | b :: t => .ok (b, t)

/-- A fixed-width unsigned integer read: `w` bytes, big-endian. -/
def readUInt (w : Nat) (s : List Byte) :
    Except ReaderError (Nat × List Byte) :=
  match readBytes w s with
  | .ok (l, rest) => .ok (fromBE l, rest)
  | .error e => .error e

/-- `Writer::write_bool` (cursor contract): one byte, `1` for true, `0` for
false. -/
def write_bool (b : Bool) : List Byte := [if b then 1 else 0]

/-- `Reader::read_bool` (cursor contract): reads one byte; `0 ↦ false`,
`1 ↦ true`, anything else is a malformed-value decode error. -/
def read_bool (s : List Byte) : Except ReaderError (Bool × List Byte) :=
  match s with
  | [] => .error .InvalidSize
  | b :: t =>
    if b = 0 then .ok (false, t)
    else if b = 1 then .ok (true, t)
    else .error .InvalidValue

/-- Modelled from the spec: a Rust `String`'s UTF-8 byte content. The codec
only moves the bytes, so the string is its byte list. -/
abbrev RString := List Byte

/-- Modelled from the spec: `Writer::write_string` is "length-prefixed"
(`crate::serializer`, not under `src/`); the length prefix is modelled as a
fixed 8-byte (usize-width) big-endian count followed by the content bytes. -/
def write_string (s : RString) : List Byte := toBE 8 s.length ++ s

/-- Modelled from the spec: `Reader::read_string` mirrors `write_string`:
an 8-byte length then that many content bytes. -/
def read_string (s : List Byte) : Except ReaderError (RString × List Byte) :=
  match readUInt 8 s with
  | .ok (n, rest) => readBytes n rest
  | .error e => .error e

/-- The fixed-size cryptographic hash (`crypto::hash::Hash`, not under
`src/`): modelled from the spec as a fixed 32-byte array. -/
def Hash := { l : List Byte // l.length = 32 }

instance : DecidableEq Hash := Subtype.instDecidableEq

/-- `Writer::write_hash`: the 32 raw bytes. -/
def write_hash (h : Hash) : List Byte := h.val

/-- `Reader::read_hash`: 32 raw bytes, `InvalidSize` on a shorter stream. -/
def read_hash (s : List Byte) : Except ReaderError (Hash × List Byte) :=
  if h : 32 ≤ s.length then
    .ok (⟨s.take 32, by simp [List.length_take]; omega⟩, s.drop 32)
  else .error .InvalidSize

/-! ## The self-describing value codec (`src/xelis_common/src/api/mod.rs`) -/

/-- `DataType`: closed enumeration of the primitive kinds. -/
inductive DataType where
  | Bool
  | String
  | U8
  | U16
  | U32
  | U64
  | U128
  | Hash
  deriving DecidableEq, Repr

/-- `DataValue`: a tagged union holding exactly one primitive. The unsigned
integer payloads carry the Rust width bound as `Fin (2 ^ width)`. -/
inductive DataValue where
  | Bool : Bool → DataValue
  | String : RString → DataValue
  | U8 : Fin (2 ^ 8) → DataValue
  | U16 : Fin (2 ^ 16) → DataValue
  | U32 : Fin (2 ^ 32) → DataValue
  | U64 : Fin (2 ^ 64) → DataValue
  | U128 : Fin (2 ^ 128) → DataValue
  | Hash : Hash → DataValue
  deriving DecidableEq

/-- `DataValue::kind`. -/
def DataValue.kind : DataValue → DataType
  | .Bool _ => .Bool
  | .String _ => .String
  | .U8 _ => .U8
  | .U16 _ => .U16
  | .U32 _ => .U32
  | .U64 _ => .U64
  | .U128 _ => .U128
  | .Hash _ => .Hash

/-- `impl Serializer for DataValue`, `fn write`: a one-byte discriminant
(0..7 for Bool, String, U8, U16, U32, U64, U128, Hash) then the payload. -/
def DataValue.write : DataValue → List Byte
  | .Bool b => 0 :: write_bool b
  | .String s => 1 :: write_string s
  | .U8 v => 2 :: toBE 1 v.val
  | .U16 v => 3 :: toBE 2 v.val
  | .U32 v => 4 :: toBE 4 v.val
  | .U64 v => 5 :: toBE 8 v.val
  | .U128 v => 6 :: toBE 16 v.val
  | .Hash h => 7 :: write_hash h

/-- `impl Serializer for DataValue`, `fn read`: dispatch on the discriminant
byte; any discriminant not in 0..7 is an `InvalidValue` decode error. -/
def DataValue.read (s : List Byte) :
    Except ReaderError (DataValue × List Byte) :=
  match read_u8 s with
  | .error e => .error e
  | .ok (tag, s) =>
    if tag = 0 then
      match read_bool s with
      | .ok (b, rest) => .ok (.Bool b, rest)
      | .error e => .error e
    else if tag = 1 then
      match read_string s with
      | .ok (v, rest) => .ok (.String v, rest)
      | .error e => .error e
    else if tag = 2 then
      match readUInt 1 s with
      | .ok (n, rest) =>
        if h : n < 2 ^ 8 then .ok (.U8 ⟨n, h⟩, rest) else .error .InvalidValue
      | .error e => .error e
    else if tag = 3 then
      match readUInt 2 s with
      | .ok (n, rest) =>
        if h : n < 2 ^ 16 then .ok (.U16 ⟨n, h⟩, rest) else .error .InvalidValue
      | .error e => .error e
    else if tag = 4 then
      match readUInt 4 s with
      | .ok (n, rest) =>
        if h : n < 2 ^ 32 then .ok (.U32 ⟨n, h⟩, rest) else .error .InvalidValue
      | .error e => .error e
    else if tag = 5 then
      match readUInt 8 s with
      | .ok (n, rest) =>
        if h : n < 2 ^ 64 then .ok (.U64 ⟨n, h⟩, rest) else .error .InvalidValue
      | .error e => .error e
    else if tag = 6 then
      match readUInt 16 s with
      | .ok (n, rest) =>
        if h : n < 2 ^ 128 then .ok (.U128 ⟨n, h⟩, rest) else .error .InvalidValue
      | .error e => .error e
    else if tag = 7 then
      match read_hash s with
      | .ok (h, rest) => .ok (.Hash h, rest)
      | .error e => .error e
    else .error .InvalidValue

/-- A `DataValue` satisfies the Rust representation invariants: string byte
lengths fit in a `usize`. (The integer bounds are carried by the `Fin`
payload types.) -/
def DataValue.WF : DataValue → Prop
  | .String s => s.length < 2 ^ 64
  | _ => True

/-! ## `DataElement` and the list model of `HashMap<DataValue, DataElement>`

The Rust `Fields` variant holds a `HashMap`. It is modelled as an
association list whose entries appear in the map's iteration order, with
the `HashMap` invariant (distinct keys) carried as a hypothesis where
needed.  `ainsert` mirrors `HashMap::insert`: an existing key has its
value replaced in place, a new key is appended. -/

/-- `DataElement`: recursive tagged union (scalar / array / map). -/
inductive DataElement where
  | Value : Option DataValue → DataElement
  | Array : List DataElement → DataElement
  | Fields : List (DataValue × DataElement) → DataElement

/-- `HashMap::insert` on the association-list model: replace in place when
the key is present, append otherwise. -/
def ainsert {K V : Type} [DecidableEq K] (l : List (K × V)) (k : K) (v : V) :
    List (K × V) :=
  match l with
  | [] => [(k, v)]
  | (k', v') :: t => if k' = k then (k, v) :: t else (k', v') :: ainsert t k v

/-- `HashMap::get` on the association-list model. -/
def alookup {K V : Type} [DecidableEq K] (l : List (K × V)) (k : K) : Option V :=
  match l with
  | [] => none
  | (k', v') :: t => if k' = k then some v' else alookup t k

/-- The keys of the association-list model, in iteration order. -/
def akeys {K V : Type} (l : List (K × V)) : List K :=
  l.map Prod.fst

/-- Modelled from the spec: `impl Serializer for Option<DataValue>`
(`crate::serializer`, not under `src/`): "a presence flag then, if
present, the DataValue encoding". -/
def write_optValue : Option DataValue → List Byte
  | none => write_bool false
  | some v => write_bool true ++ v.write

/-- Modelled from the spec: reading an `Option<DataValue>` mirrors
`write_optValue`: a presence flag, then the value when present. -/
def read_optValue (s : List Byte) :
    Except ReaderError (Option DataValue × List Byte) :=
  match read_bool s with
  | .error e => .error e
  | .ok (false, rest) => .ok (none, rest)
  | .ok (true, rest) =>
    match DataValue.read rest with
    | .ok (v, rest') => .ok (some v, rest')
    | .error e => .error e

instance : (v : DataValue) → Decidable v.WF
  | .Bool _ => inferInstanceAs (Decidable True)
  | .String s => inferInstanceAs (Decidable (s.length < 2 ^ 64))
  | .U8 _ => inferInstanceAs (Decidable True)
  | .U16 _ => inferInstanceAs (Decidable True)
  | .U32 _ => inferInstanceAs (Decidable True)
  | .U64 _ => inferInstanceAs (Decidable True)
  | .U128 _ => inferInstanceAs (Decidable True)
  | .Hash _ => inferInstanceAs (Decidable True)

mutual

/-- `impl Serializer for DataElement`, `fn write`: discriminant `0`/`1`/`2`
for Value/Array/Fields; Array and Fields emit their length cast `as u8`
(i.e. modulo 256) as a single byte, then every child's encoding. -/
def DataElement.write : DataElement → List Byte
  | .Value v => 0 :: write_optValue v
  | .Array xs => 1 :: byte xs.length :: writeList xs
  | .Fields fs => 2 :: byte fs.length :: writeFields fs

/-- The Array loop of `DataElement::write`: each child's encoding in order. -/
def writeList : List DataElement → List Byte
  | [] => []
  | x :: t => x.write ++ writeList t

/-- The Fields loop of `DataElement::write`: `(key, value)` encodings in
iteration order. -/
def writeFields : List (DataValue × DataElement) → List Byte
  | [] => []
  | (k, v) :: t => k.write ++ v.write ++ writeFields t

end

mutual

/-- Representation invariants of a Rust `DataElement` value (carried by the
Rust types, hypotheses in the list model): `Fields` keys are distinct (the
`HashMap` invariant) and every contained string fits a `usize` length. -/
def DataElement.wfkeys : DataElement → Bool
  | .Value none => true
  | .Value (some v) => decide v.WF
  | .Array xs => wfkeysList xs
  | .Fields fs => decide (akeys fs).Nodup && wfkeysFields fs

def wfkeysList : List DataElement → Bool
  | [] => true
  | x :: t => x.wfkeys && wfkeysList t

def wfkeysFields : List (DataValue × DataElement) → Bool
  | [] => true
  | (k, v) :: t => decide k.WF && v.wfkeys && wfkeysFields t

end

mutual

/-- Every `Array` and `Fields` node has at most 255 direct children (the
255-child-per-node cap from the spec). -/
def DataElement.wf255 : DataElement → Bool
  | .Value _ => true
  | .Array xs => decide (xs.length ≤ 255) && wf255List xs
  | .Fields fs => decide (fs.length ≤ 255) && wf255Fields fs

def wf255List : List DataElement → Bool
  | [] => true
  | x :: t => x.wf255 && wf255List t

def wf255Fields : List (DataValue × DataElement) → Bool
  | [] => true
  | (_, v) :: t => v.wf255 && wf255Fields t

end

mutual

/-- `impl Serializer for DataElement`, `fn read`, with an explicit fuel
argument to express the recursion in Lean. The fuel strictly exceeds the
nesting depth reachable from the stream (each recursion level first
consumes a discriminant byte), so with fuel `length + 1` — see
`DataElement.read` — the fuel branch is unreachable and the function
computes exactly what the Rust recursion computes. Dispatch on the
discriminant byte: `0`/`1`/`2` for Value/Array/Fields, anything else is an
`InvalidValue` decode error. -/
def readElemF : Nat → List Byte → Except ReaderError (DataElement × List Byte)
  | 0, _ => .error .InvalidSize
  | f + 1, s =>
    match read_u8 s with
    | .error e => .error e
    | .ok (tag, s) =>
      if tag = 0 then
        match read_optValue s with
        | .ok (v, rest) => .ok (.Value v, rest)
        | .error e => .error e
      else if tag = 1 then
        match read_u8 s with
        | .error e => .error e
        | .ok (size, s) =>
          match readArrF f size.val s with
          | .ok (xs, rest) => .ok (.Array xs, rest)
          | .error e => .error e
      else if tag = 2 then
        match read_u8 s with
        | .error e => .error e
        | .ok (size, s) =>
          match readFieldsF f size.val [] s with
          | .ok (fs, rest) => .ok (.Fields fs, rest)
          | .error e => .error e
      else .error .InvalidValue

/-- The Array loop of `DataElement::read`: read `n` children in order. -/
def readArrF : Nat → Nat → List Byte →
    Except ReaderError (List DataElement × List Byte)
  | _, 0, s => .ok ([], s)
  | f, n + 1, s =>
    match readElemF f s with
    | .error e => .error e
    | .ok (x, s) =>
      match readArrF f n s with
      | .ok (xs, rest) => .ok (x :: xs, rest)
      | .error e => .error e

/-- The Fields loop of `DataElement::read`: read `n` `(key, value)` pairs,
inserting each into the accumulated map (`HashMap::insert`, so a repeated
key overwrites the earlier entry). -/
def readFieldsF : Nat → Nat → List (DataValue × DataElement) → List Byte →
    Except ReaderError (List (DataValue × DataElement) × List Byte)
  | _, 0, acc, s => .ok (acc, s)
  | f, n + 1, acc, s =>
    match DataValue.read s with
    | .error e => .error e
    | .ok (k, s) =>
      match readElemF f s with
      | .error e => .error e
      | .ok (v, s) => readFieldsF f n (ainsert acc k v) s

end

/-- `impl Serializer for DataElement`, `fn read`: the Rust recursion, whose
depth on a given stream is bounded by the stream length (one discriminant
byte is consumed before each recursive descent), instantiated with fuel
that can never run out. -/
def DataElement.read (s : List Byte) :
    Except ReaderError (DataElement × List Byte) :=
  readElemF (s.length + 1) s

/-! ## Typed field lookup (`DataElement::get_value`) -/

/-- `DataElement::get_value`: returns the contained `DataValue` only when
`self` is a `Fields` node holding, under the key `DataValue::String(name)`,
a non-null `Value` leaf whose `kind()` is `data_type`. -/
def DataElement.get_value (self : DataElement) (name : RString)
    (data_type : DataType) : Option DataValue :=
  match self with
  | .Fields data =>
    match alookup data (.String name) with
    | none => none
    | some (.Value value) =>
      match value with
      | none => none
      | some unwrapped =>
        if unwrapped.kind ≠ data_type then none else some unwrapped
    | some _ => none
  | _ => none

/-! ## Discriminant dispatch facts -/

/-- The binary discriminant assigned to each `DataType`, in declaration
order: Bool ↦ 0, String ↦ 1, U8 ↦ 2, U16 ↦ 3, U32 ↦ 4, U64 ↦ 5,
U128 ↦ 6, Hash ↦ 7. -/
def valueTag : DataType → Byte
  | .Bool => 0
  | .String => 1
  | .U8 => 2
  | .U16 => 3
  | .U32 => 4
  | .U64 => 5
  | .U128 => 6
  | .Hash => 7

/-! ## The transaction builder
(`src/xelis_wallet/src/transaction_builder.rs`)

The builder's collaborators that are not under `src/` are modelled from the
spec's interface contracts (§6): a public key is its encoding (an opaque
byte string with equality), a key-pair exposes its public key and a signing
function over raw bytes, and `calculate_tx_fee` is an arbitrary pure
pricing function, passed as a parameter. The `f64` fee multiplier is
modelled as an exact rational; `as u64` on a non-negative float truncates
toward zero and saturates, modelled by `f64_as_u64`. -/

/-- Modelled from the spec: a public key, identified with its fixed
encoding (`crypto::key::PublicKey`, not under `src/`). -/
abbrev PublicKey := List Byte

/-- Modelled from the spec: `crypto::key::SIGNATURE_LENGTH`, the fixed
byte length of a signature (not under `src/`; 64 for ed25519). -/
def SIGNATURE_LENGTH : Nat := 64

/-- Modelled from the spec: a key-pair exposes `get_public_key()` and
`sign(bytes)` (signing contract, §6). -/
structure KeyPair where
  public_key : PublicKey
  sign : List Byte → List Byte

/-- Modelled from the spec: one entry of a Transfer payload, with the
fields the builder traverses (`amount`, `asset`, `to`). -/
structure Transfer where
  amount : Nat
  asset : Hash
  /-- The recipient (the source's `to` field; `to` is a Lean keyword). -/
  to_key : PublicKey
  deriving DecidableEq

/-- Modelled from the spec: a contract call's declared asset list: the
`(asset, amount)` pairs the builder iterates, in iteration order. -/
structure ContractCall where
  assets : List (Hash × Nat)
  deriving DecidableEq

/-- Modelled from the spec: the `TransactionType` payload variants the
builder traverses (field layouts beyond this are out of the spec's
scope). -/
inductive TransactionType where
  | Burn : Hash → Nat → TransactionType
  | CallContract : ContractCall → TransactionType
  | Transfer : List Transfer → TransactionType
  | DeployContract : RString → TransactionType
  deriving DecidableEq

/-- `wallet::WalletError`, restricted to the variants `build` can return. -/
inductive WalletError where
  | InvalidKeyPair
  | ExpectedOneTx
  | TxOwnerIsReceiver
  deriving DecidableEq, Repr

/-- `Transaction::new(owner, data, fee, nonce, signature)`: the immutable
signed transaction (struct layout modelled from the spec §3). -/
structure Transaction where
  owner : PublicKey
  data : TransactionType
  fee : Nat
  nonce : Nat
  signature : List Byte
  deriving DecidableEq

/-- `TransactionBuilder`: owner, payload, and the `f64` fee multiplier
(modelled as an exact rational). -/
structure TransactionBuilder where
  owner : PublicKey
  data : TransactionType
  fee_multiplier : ℚ

/-- Rust `as u64` applied to a non-negative-or-negative `f64` product:
truncation toward zero, clamped to `[0, 2^64 - 1]` (negative values give
`0`, oversized values saturate). -/
def f64_as_u64 (q : ℚ) : Nat := min (⌊q⌋.toNat) (2 ^ 64 - 1)

/-- `TransactionBuilder::serialize`: writes the owner public key, then the
transaction-type payload, into a fresh writer. `data_write` is the
payload's `Serializer::write` (its layout is outside the spec's scope). -/
def TransactionBuilder.serialize (data_write : TransactionType → List Byte)
    (b : TransactionBuilder) : List Byte :=
  b.owner ++ data_write b.data

/-- `TransactionBuilder::estimate_fees_internal`: sizes the final
encoding (`SIGNATURE_LENGTH + 8 + total_write()`), prices it with the
external `calculate_tx_fee`, scales by the fee multiplier and converts
`as u64`. -/
def TransactionBuilder.estimate_fees_internal
    (calculate_tx_fee : Nat → Nat) (b : TransactionBuilder)
    (writer : List Byte) : Nat :=
  let total_bytes := SIGNATURE_LENGTH + 8 + writer.length
  f64_as_u64 ((calculate_tx_fee total_bytes : ℚ) * b.fee_multiplier)

/-- `TransactionBuilder::estimate_fees`. -/
def TransactionBuilder.estimate_fees (calculate_tx_fee : Nat → Nat)
    (data_write : TransactionType → List Byte)
    (b : TransactionBuilder) : Nat :=
  b.estimate_fees_internal calculate_tx_fee (b.serialize data_write)

/-- The Transfer arm of `total_spent`:
`total_spent.entry(asset).or_insert(0) += amount`, with `u64` wrapping
addition. -/
def aentry_add (m : List (Hash × Nat)) (k : Hash) (amt : Nat) :
    List (Hash × Nat) :=
  match m with
  | [] => [(k, (0 + amt) % 2 ^ 64)]
  | (k', v') :: t =>
    if k' = k then (k', (v' + amt) % 2 ^ 64) :: t
    else (k', v') :: aentry_add t k amt

/-- `TransactionBuilder::total_spent`: the per-asset amounts committed by
the payload (a `HashMap`, modelled as an association list). -/
def TransactionBuilder.total_spent (b : TransactionBuilder) :
    List (Hash × Nat) :=
  match b.data with
  | .Burn asset amount => ainsert [] asset amount
  | .CallContract call =>
    call.assets.foldl (fun m p => ainsert m p.1 p.2) []
  | .Transfer txs => txs.foldl (fun m tx => aentry_add m tx.asset tx.amount) []
  | .DeployContract _ => []

/-- `TransactionBuilder::build`: validate (key match, non-empty transfer
list, no self-transfer), then append the fee to the base encoding, sign
those exact bytes, and assemble the transaction (nonce `0`). -/
def TransactionBuilder.build (calculate_tx_fee : Nat → Nat)
    (data_write : TransactionType → List Byte)
    (b : TransactionBuilder) (keypair : KeyPair) :
    Except WalletError Transaction :=
  if keypair.public_key ≠ b.owner then .error .InvalidKeyPair
  else
    let check : Except WalletError Unit :=
      match b.data with
      | .Transfer txs =>
        if txs.length = 0 then .error .ExpectedOneTx
        else if txs.any fun tx => tx.to_key = b.owner then
          .error .TxOwnerIsReceiver
        else .ok ()
      | _ => .ok ()
    match check with
    | .error e => .error e
    | .ok _ =>
      let writer := b.serialize data_write
      let fee := b.estimate_fees_internal calculate_tx_fee writer
      let writer := writer ++ toBE 8 fee
      let nonce := 0
      let signature := keypair.sign writer
      .ok ⟨b.owner, b.data, fee, nonce, signature⟩

/-! ## The textual (untagged JSON) representation

`DataValue` and `DataElement` derive `Serialize`/`Deserialize` with
`#[serde(untagged)]` in the source; the serde machinery itself is not
under `src/`, so the textual codec is modelled from the spec: a value
serializes as its bare JSON shape, and "decoding from text must infer the
variant by trying each primitive type in the declared order until one
parses successfully". -/

/-- A JSON document, restricted to the shapes this codec emits (numbers
are unsigned integers; object keys are strings in emission order). -/
inductive Json where
  | null : Json
  | bool : Bool → Json
  | num : Nat → Json
  | str : List Byte → Json
  | arr : List Json → Json
  | obj : List (List Byte × Json) → Json

/-- One hexadecimal digit character, as a byte (lowercase). -/
def hexDigit (n : Nat) : Byte :=
  if n < 10 then byte (48 + n) else byte (87 + n)

/-- Modelled from the spec: a hash's textual form is its hex string. -/
def hexBytes (h : Hash) : List Byte :=
  h.val.flatMap fun b => [hexDigit (b.val / 16), hexDigit (b.val % 16)]

/-- Modelled from the spec: the decimal-digit byte string of a number
(used for the textual form of integer map keys). -/
def decimalBytes (n : Nat) : List Byte :=
  (Nat.toDigits 10 n).map fun c => byte c.toNat

/-- Modelled from the spec: `Serialize` for the untagged `DataValue`: the
bare value, with no wrapper naming the variant; a hash serializes as its
canonical hex string. -/
def DataValue.encode_text : DataValue → Json
  | .Bool b => .bool b
  | .String s => .str s
  | .U8 v => .num v.val
  | .U16 v => .num v.val
  | .U32 v => .num v.val
  | .U64 v => .num v.val
  | .U128 v => .num v.val
  | .Hash h => .str (hexBytes h)

/-- Modelled from the spec: `Deserialize` for the untagged `DataValue`:
try each variant in declaration order (Bool, String, U8, U16, U32, U64,
U128, Hash) until one parses. A JSON bool parses as `Bool`; a JSON string
parses as `String` (declared before `Hash`); a JSON number parses as the
first unsigned width that can hold it. -/
def DataValue.decode_text : Json → Option DataValue
  | .bool b => some (.Bool b)
  | .str s => some (.String s)
  | .num n =>
    if h : n < 2 ^ 8 then some (.U8 ⟨n, h⟩)
    else if h : n < 2 ^ 16 then some (.U16 ⟨n, h⟩)
    else if h : n < 2 ^ 32 then some (.U32 ⟨n, h⟩)
    else if h : n < 2 ^ 64 then some (.U64 ⟨n, h⟩)
    else if h : n < 2 ^ 128 then some (.U128 ⟨n, h⟩)
    else none
  | _ => none

/-- Modelled from the spec: the textual form of a map key `DataValue`
("maps as key/value objects keyed by the textual form of the key
value"). -/
def keyText : DataValue → List Byte
  | .Bool b => if b then [116, 114, 117, 101] else [102, 97, 108, 115, 101]
  | .String s => s
  | .U8 v => decimalBytes v.val
  | .U16 v => decimalBytes v.val
  | .U32 v => decimalBytes v.val
  | .U64 v => decimalBytes v.val
  | .U128 v => decimalBytes v.val
  | .Hash h => hexBytes h

mutual

/-- Modelled from the spec: `Serialize` for the untagged `DataElement`: a
leaf is the bare (possibly null) value, an array a JSON array, a map a
JSON object keyed by the textual form of each key. -/
def DataElement.encode_text : DataElement → Json
  | .Value none => .null
  | .Value (some v) => v.encode_text
  | .Array xs => .arr (encodeArrText xs)
  | .Fields fs => .obj (encodeObjText fs)

def encodeArrText : List DataElement → List Json
  | [] => []
  | x :: t => x.encode_text :: encodeArrText t

def encodeObjText : List (DataValue × DataElement) → List (List Byte × Json)
  | [] => []
  | (k, v) :: t => (keyText k, v.encode_text) :: encodeObjText t

end

mutual

/-- Modelled from the spec: `Deserialize` for the untagged `DataElement`:
try Value, then Array, then Fields. `null` and every primitive shape
parse as a `Value` leaf (an out-of-range number fails); a JSON array
parses as `Array`; a JSON object parses as `Fields`, each key read as an
untagged `DataValue` from a JSON string — which the `String` variant
always wins — and inserted in order (a repeated key overwrites). -/
def DataElement.decode_text : Json → Option DataElement
  | .null => some (.Value none)
  | .bool b => some (.Value (some (.Bool b)))
  | .num n =>
    match DataValue.decode_text (.num n) with
    | some v => some (.Value (some v))
    | none => none
  | .str s => some (.Value (some (.String s)))
  | .arr js =>
    match decodeArrText js with
    | some xs => some (.Array xs)
    | none => none
  | .obj kvs =>
    match decodeObjText [] kvs with
    | some fs => some (.Fields fs)
    | none => none

def decodeArrText : List Json → Option (List DataElement)
  | [] => some []
  | j :: t =>
    match DataElement.decode_text j, decodeArrText t with
    | some x, some xs => some (x :: xs)
    | _, _ => none

def decodeObjText : List (DataValue × DataElement) →
    List (List Byte × Json) → Option (List (DataValue × DataElement))
  | acc, [] => some acc
  | acc, (k, j) :: t =>
    match DataElement.decode_text j with
    | some v => decodeObjText (ainsert acc (.String k) v) t
    | none => none

end

/-- A `DataValue` is textually canonical when untagged decoding of its
textual form reproduces the same variant: `Bool` and `String` always, an
unsigned-integer variant only when no earlier-declared width holds its
value, and `Hash` never (its hex string decodes as `String`). -/
def textCanonical : DataValue → Bool
  | .Bool _ => true
  | .String _ => true
  | .U8 _ => true
  | .U16 v => decide (2 ^ 8 ≤ v.val)
  | .U32 v => decide (2 ^ 16 ≤ v.val)
  | .U64 v => decide (2 ^ 32 ≤ v.val)
  | .U128 v => decide (2 ^ 64 ≤ v.val)
  | .Hash _ => false

mutual

/-- A `DataElement` tree round-trips textually when every leaf is
textually canonical and every `Fields` key is a `String` value with
distinct keys. -/
def DataElement.textWF : DataElement → Bool
  | .Value none => true
  | .Value (some v) => textCanonical v
  | .Array xs => textWFList xs
  | .Fields fs => decide (akeys fs).Nodup && textWFFields fs

def textWFList : List DataElement → Bool
  | [] => true
  | x :: t => x.textWF && textWFList t

def textWFFields : List (DataValue × DataElement) → Bool
  | [] => true
  | (k, v) :: t =>
    (match k with
      | .String _ => true
      | _ => false) && v.textWF && textWFFields t

end

/-! ## Concrete example values, used by the witnesses -/

/-- A concrete 32-byte hash (all zero bytes). -/
def exHashA : Hash := ⟨List.replicate 32 0, by simp⟩

/-- A second, distinct concrete hash (all `1` bytes). -/
def exHashB : Hash := ⟨List.replicate 32 1, by simp⟩

/-- A concrete pair list with a duplicated key. -/
def exDupFields : List (DataValue × DataElement) :=
  [(.Bool true, .Value none), (.Bool true, .Value none)]

/-- A concrete `Fields` map with 256 distinct `U32` keys. -/
def exBigFields : List (DataValue × DataElement) :=
  (List.range 256).map fun i =>
    (DataValue.U32 ⟨i % 2 ^ 32, Nat.mod_lt _ (by norm_num)⟩,
     DataElement.Value none)

/-! ## Theorems -/

theorem toBE_length (w n : Nat) : (toBE w n).length = w := by
  induction w generalizing n with
  | zero => rfl
  | succ w ih => simp [toBE, ih]

theorem fromBE_toBE (w n : Nat) : fromBE (toBE w n) = n % 256 ^ w := by
  induction w generalizing n with
  | zero => simp [toBE, fromBE, Nat.mod_one]
  | succ w ih =>
    simp only [toBE, fromBE, ih, toBE_length, byte]
    have key : n % 256 ^ (w + 1) = n / 256 ^ w % 256 * 256 ^ w + n % 256 ^ w := by
      rw [Nat.pow_succ, Nat.mod_mul]
      ring
    rw [key]

theorem fromBE_toBE_of_lt {w n : Nat} (h : n < 256 ^ w) :
    fromBE (toBE w n) = n := by
  rw [fromBE_toBE, Nat.mod_eq_of_lt h]

theorem readBytes_append {w : Nat} {l : List Byte} (rest : List Byte)
    (h : l.length = w) : readBytes w (l ++ rest) = .ok (l, rest) := by
  subst h
  simp [readBytes, List.take_append, List.drop_append]

theorem readUInt_append {w n : Nat} (rest : List Byte) (h : n < 256 ^ w) :
    readUInt w (toBE w n ++ rest) = .ok (n, rest) := by
  simp [readUInt, readBytes_append rest (toBE_length w n), fromBE_toBE_of_lt h]

theorem read_string_append {s : RString} (rest : List Byte)
    (h : s.length < 256 ^ 8) :
    read_string (write_string s ++ rest) = .ok (s, rest) := by
  simp only [write_string, List.append_assoc, read_string,
    readUInt_append (s ++ rest) h]
  exact readBytes_append rest rfl

theorem read_hash_append (h : Hash) (rest : List Byte) :
    read_hash (write_hash h ++ rest) = .ok (h, rest) := by
  obtain ⟨l, hl⟩ := h
  simp only [write_hash, read_hash]
  rw [dif_pos (by simp [hl])]
  simp only [Except.ok.injEq, Prod.mk.injEq]
  constructor
  · apply Subtype.ext
    simp [← hl, List.take_append]
  · simp [← hl, List.drop_append]

theorem DataValue.read_of_write {v : DataValue} (rest : List Byte)
    (hwf : v.WF) : DataValue.read (v.write ++ rest) = .ok (v, rest) := by
  have h256 : (256 : Nat) ^ 8 = 2 ^ 64 := by norm_num
  cases v with
  | Bool b =>
    cases b <;> simp [DataValue.write, DataValue.read, read_u8, write_bool, read_bool]
  | String s =>
    have hs : s.length < 256 ^ 8 := by rw [h256]; exact hwf
    simp [DataValue.write, DataValue.read, read_u8, read_string_append rest hs]
  | U8 v =>
    have hv : v.val < 256 ^ 1 := by
      have h := v.isLt
      norm_num at h ⊢
      exact h
    simp [DataValue.write, DataValue.read, read_u8, readUInt_append rest hv, v.isLt]
  | U16 v =>
    have hv : v.val < 256 ^ 2 := by have := v.isLt; omega
    simp [DataValue.write, DataValue.read, read_u8, readUInt_append rest hv, v.isLt]
  | U32 v =>
    have hv : v.val < 256 ^ 4 := by have := v.isLt; omega
    simp [DataValue.write, DataValue.read, read_u8, readUInt_append rest hv, v.isLt]
  | U64 v =>
    have hv : v.val < 256 ^ 8 := by have := v.isLt; rw [h256]; omega
    simp [DataValue.write, DataValue.read, read_u8, readUInt_append rest hv, v.isLt]
  | U128 v =>
    have hv : v.val < 256 ^ 16 := by
      have h2 : (256 : Nat) ^ 16 = 2 ^ 128 := by norm_num
      rw [h2]; exact v.isLt
    simp [DataValue.write, DataValue.read, read_u8, readUInt_append rest hv, v.isLt]
  | Hash h =>
    simp [DataValue.write, DataValue.read, read_u8, read_hash_append h rest]

theorem writeList_eq (xs : List DataElement) :
    writeList xs = (xs.map DataElement.write).flatten := by
  induction xs with
  | nil => simp [writeList]
  | cons x t ih => simp [writeList, ih]

theorem writeFields_eq (fs : List (DataValue × DataElement)) :
    writeFields fs =
      (fs.map fun p => p.1.write ++ p.2.write).flatten := by
  induction fs with
  | nil => simp [writeFields]
  | cons p t ih =>
    obtain ⟨k, v⟩ := p
    simp [writeFields, ih]

/-- Any element's encoding starts with its discriminant byte: nonempty. -/
theorem DataElement.write_length_pos (e : DataElement) :
    0 < e.write.length := by
  cases e <;> simp [DataElement.write]

theorem writeList_mem_le {x : DataElement} {xs : List DataElement}
    (hx : x ∈ xs) : x.write.length ≤ (writeList xs).length := by
  induction xs with
  | nil => cases hx
  | cons y t ih =>
    rcases List.mem_cons.mp hx with h | h
    · subst h
      simp [writeList]
    · have := ih h
      simp only [writeList, List.length_append]
      omega

theorem writeFields_mem_le {p : DataValue × DataElement}
    {fs : List (DataValue × DataElement)} (hp : p ∈ fs) :
    p.2.write.length ≤ (writeFields fs).length := by
  induction fs with
  | nil => cases hp
  | cons q t ih =>
    rcases List.mem_cons.mp hp with h | h
    · subst h
      obtain ⟨k, v⟩ := p
      simp [writeFields]
      omega
    · have := ih h
      obtain ⟨k', v'⟩ := q
      simp only [writeFields, List.length_append]
      omega

theorem byte_val (n : Nat) : (byte n).val = n % 256 := rfl

theorem byte_eq_of_le {n : Nat} (h : n ≤ 255) :
    (byte n).val = n := by
  rw [byte_val, Nat.mod_eq_of_lt (by omega)]

theorem wfkeysList_mem {x : DataElement} {xs : List DataElement}
    (h : wfkeysList xs = true) (hx : x ∈ xs) : x.wfkeys = true := by
  induction xs with
  | nil => cases hx
  | cons y t ih =>
    rw [wfkeysList, Bool.and_eq_true] at h
    rcases List.mem_cons.mp hx with h' | h'
    · subst h'; exact h.1
    · exact ih h.2 h'

theorem wfkeysFields_mem {p : DataValue × DataElement}
    {fs : List (DataValue × DataElement)}
    (h : wfkeysFields fs = true) (hp : p ∈ fs) :
    p.1.WF ∧ p.2.wfkeys = true := by
  induction fs with
  | nil => cases hp
  | cons q t ih =>
    obtain ⟨k, v⟩ := q
    rw [wfkeysFields, Bool.and_eq_true, Bool.and_eq_true] at h
    rcases List.mem_cons.mp hp with h' | h'
    · subst h'
      exact ⟨of_decide_eq_true h.1.1, h.1.2⟩
    · exact ih h.2 h'

theorem wf255List_mem {x : DataElement} {xs : List DataElement}
    (h : wf255List xs = true) (hx : x ∈ xs) : x.wf255 = true := by
  induction xs with
  | nil => cases hx
  | cons y t ih =>
    rw [wf255List, Bool.and_eq_true] at h
    rcases List.mem_cons.mp hx with h' | h'
    · subst h'; exact h.1
    · exact ih h.2 h'

theorem wf255Fields_mem {p : DataValue × DataElement}
    {fs : List (DataValue × DataElement)}
    (h : wf255Fields fs = true) (hp : p ∈ fs) : p.2.wf255 = true := by
  induction fs with
  | nil => cases hp
  | cons q t ih =>
    obtain ⟨k, v⟩ := q
    rw [wf255Fields, Bool.and_eq_true] at h
    rcases List.mem_cons.mp hp with h' | h'
    · subst h'; exact h.1
    · exact ih h.2 h'

theorem read_optValue_write {v : Option DataValue} (rest : List Byte)
    (hv : ∀ x ∈ v, x.WF) :
    read_optValue (write_optValue v ++ rest) = .ok (v, rest) := by
  cases v with
  | none => simp [write_optValue, write_bool, read_optValue, read_bool]
  | some x =>
    have hx : x.WF := hv x rfl
    simp [write_optValue, write_bool, read_optValue, read_bool,
      DataValue.read_of_write rest hx]

/-- `ainsert` of a fresh key appends the pair. -/
theorem ainsert_of_not_mem {K V : Type} [DecidableEq K] {l : List (K × V)}
    {k : K} (v : V) (h : k ∉ akeys l) :
    ainsert l k v = l ++ [(k, v)] := by
  induction l with
  | nil => rfl
  | cons p t ih =>
    obtain ⟨k', v'⟩ := p
    simp only [akeys, List.map_cons, List.mem_cons, not_or] at h
    rw [ainsert]
    rw [if_neg (by simpa using fun h' => h.1 h'.symm)]
    rw [ih (by simpa [akeys] using h.2)]
    simp

/-- Rebuilding a duplicate-free map by inserting its pairs in order gives
back the same association list. -/
theorem foldl_ainsert_nodup {K V : Type} [DecidableEq K] {fs acc : List (K × V)}
    (h : (akeys (acc ++ fs)).Nodup) :
    fs.foldl (fun m p => ainsert m p.1 p.2) acc = acc ++ fs := by
  induction fs generalizing acc with
  | nil => simp
  | cons p t ih =>
    obtain ⟨k, v⟩ := p
    have h' : (akeys acc ++ akeys ((k, v) :: t)).Nodup := by
      simpa [akeys] using h
    rw [List.nodup_append] at h'
    have hk : k ∉ akeys acc := fun hmem => h'.2.2 hmem (by simp [akeys])
    rw [List.foldl_cons]
    simp only
    rw [ainsert_of_not_mem v hk]
    rw [ih (by simpa [akeys, List.append_assoc] using h)]
    simp

/-- The Array loop round-trip, parameterized by the element-level
round-trip at the current fuel. -/
theorem readArrF_write (f : Nat)
    (H : ∀ e rest, e.wfkeys = true → e.wf255 = true → e.write.length ≤ f →
      readElemF f (e.write ++ rest) = .ok (e, rest)) :
    ∀ (xs : List DataElement) (rest : List Byte),
      (∀ x ∈ xs, x.wfkeys = true ∧ x.wf255 = true ∧ x.write.length ≤ f) →
      readArrF f xs.length (writeList xs ++ rest) = .ok (xs, rest) := by
  intro xs
  induction xs with
  | nil => intro rest _; simp [writeList, readArrF]
  | cons x t ih =>
    intro rest hx
    have h1 := hx x (List.mem_cons_self x t)
    rw [writeList, List.length_cons]
    rw [readArrF]
    rw [List.append_assoc, H x _ h1.1 h1.2.1 h1.2.2]
    simp only [ih rest fun y hy => hx y (List.mem_cons_of_mem x hy)]

/-- The Fields loop round-trip: reading `n` written pairs inserts them in
order into the accumulator. -/
theorem readFieldsF_write (f : Nat)
    (H : ∀ e rest, e.wfkeys = true → e.wf255 = true → e.write.length ≤ f →
      readElemF f (e.write ++ rest) = .ok (e, rest)) :
    ∀ (fs : List (DataValue × DataElement))
      (acc : List (DataValue × DataElement)) (rest : List Byte),
      (∀ p ∈ fs, p.1.WF ∧ p.2.wfkeys = true ∧ p.2.wf255 = true ∧
        p.2.write.length ≤ f) →
      readFieldsF f fs.length acc (writeFields fs ++ rest) =
        .ok (fs.foldl (fun m p => ainsert m p.1 p.2) acc, rest) := by
  intro fs
  induction fs with
  | nil => intro acc rest _; simp [writeFields, readFieldsF]
  | cons p t ih =>
    intro acc rest hx
    obtain ⟨k, v⟩ := p
    have h1 := hx (k, v) (List.mem_cons_self _ t)
    rw [writeFields, List.length_cons]
    rw [readFieldsF]
    simp only [List.append_assoc]
    rw [DataValue.read_of_write _ h1.1]
    simp only [H v _ h1.2.1 h1.2.2.1 h1.2.2.2]
    simp only [ih (ainsert acc k v) rest fun q hq => hx q (List.mem_cons_of_mem _ hq)]
    simp [List.foldl_cons]

/-- Element-level binary round-trip at any sufficient fuel. -/
theorem readElemF_write :
    ∀ (f : Nat) (e : DataElement) (rest : List Byte),
      e.wfkeys = true → e.wf255 = true → e.write.length ≤ f →
      readElemF f (e.write ++ rest) = .ok (e, rest) := by
  intro f
  induction f using Nat.strong_induction_on with
  | _ f IH =>
    intro e rest hk h255 hlen
    match f with
    | 0 => exact absurd hlen (by have := e.write_length_pos; omega)
    | f + 1 =>
      have hIH : ∀ e' rest', e'.wfkeys = true → e'.wf255 = true →
          e'.write.length ≤ f → readElemF f (e'.write ++ rest') = .ok (e', rest') :=
        fun e' rest' => IH f (Nat.lt_succ_self f) e' rest'
      cases e with
      | Value v =>
        have hv : ∀ x ∈ v, x.WF := by
          cases v with
          | none => simp
          | some x =>
            intro y hy
            rw [Option.mem_some_iff] at hy
            subst hy
            rw [DataElement.wfkeys] at hk
            exact of_decide_eq_true hk
        rw [DataElement.write]
        rw [readElemF]
        simp [read_u8, read_optValue_write rest hv]
      | Array xs =>
        have hxslen : xs.length ≤ 255 := by
          rw [DataElement.wf255, Bool.and_eq_true] at h255
          exact of_decide_eq_true h255.1
        have hmem : ∀ x ∈ xs, x.wfkeys = true ∧ x.wf255 = true ∧
            x.write.length ≤ f := by
          intro x hx
          refine ⟨wfkeysList_mem (by rwa [DataElement.wfkeys] at hk) hx,
            wf255List_mem ?_ hx, ?_⟩
          · rw [DataElement.wf255, Bool.and_eq_true] at h255
            exact h255.2
          · have h1 := writeList_mem_le hx
            rw [DataElement.write] at hlen
            simp only [List.length_cons] at hlen
            omega
        rw [DataElement.write]
        rw [readElemF]
        simp only [read_u8, List.cons_append]
        simp [readArrF_write f hIH xs rest hmem,
          Fin.ext_iff, byte_eq_of_le hxslen]
      | Fields fs =>
        have hnodup : (akeys fs).Nodup := by
          rw [DataElement.wfkeys, Bool.and_eq_true] at hk
          exact of_decide_eq_true hk.1
        have hfslen : fs.length ≤ 255 := by
          rw [DataElement.wf255, Bool.and_eq_true] at h255
          exact of_decide_eq_true h255.1
        have hmem : ∀ p ∈ fs, p.1.WF ∧ p.2.wfkeys = true ∧
            p.2.wf255 = true ∧ p.2.write.length ≤ f := by
          intro p hp
          have hkf := wfkeysFields_mem
            (by rw [DataElement.wfkeys, Bool.and_eq_true] at hk; exact hk.2) hp
          refine ⟨hkf.1, hkf.2, wf255Fields_mem ?_ hp, ?_⟩
          · rw [DataElement.wf255, Bool.and_eq_true] at h255
            exact h255.2
          · have h1 := writeFields_mem_le hp
            rw [DataElement.write] at hlen
            simp only [List.length_cons] at hlen
            omega
        rw [DataElement.write]
        rw [readElemF]
        simp only [read_u8, List.cons_append]
        simp [readFieldsF_write f hIH fs [] rest hmem,
          Fin.ext_iff, byte_eq_of_le hfslen,
          foldl_ainsert_nodup (show (akeys ([] ++ fs)).Nodup by simpa using hnodup)]

/-- Binary round-trip for a well-formed element, at the level of
`DataElement.read` itself. -/
theorem DataElement.elem_read_of_write {e : DataElement} (rest : List Byte)
    (hk : e.wfkeys = true) (h255 : e.wf255 = true) :
    DataElement.read (e.write ++ rest) = .ok (e, rest) := by
  rw [DataElement.read]
  exact readElemF_write _ e rest hk h255 (by simp; omega)

/-- A `DataValue` tag byte `8` or above is an `InvalidValue` decode error. -/
theorem DataValue.read_bad_tag {t : Byte} (s : List Byte) (ht : 8 ≤ t.val) :
    DataValue.read (t :: s) = .error .InvalidValue := by
  have h : ∀ k : Byte, k.val ≤ 7 → t ≠ k := by
    intro k hk he
    subst he
    omega
  rw [DataValue.read]
  simp [read_u8, h 0 (by decide), h 1 (by decide), h 2 (by decide),
    h 3 (by decide), h 4 (by decide), h 5 (by decide), h 6 (by decide),
    h 7 (by decide)]

/-- A `DataElement` tag byte outside `{0,1,2}` is an `InvalidValue` decode
error (at any nonzero fuel, hence for `DataElement.read`). -/
theorem readElemF_bad_tag {t : Byte} (f : Nat) (s : List Byte)
    (ht : 3 ≤ t.val) :
    readElemF (f + 1) (t :: s) = .error .InvalidValue := by
  have h : ∀ k : Byte, k.val ≤ 2 → t ≠ k := by
    intro k hk he
    subst he
    omega
  rw [readElemF]
  simp [read_u8, h 0 (by decide), h 1 (by decide), h 2 (by decide)]

/-- On a successful `DataValue` parse, the consumed tag byte is exactly the
declaration-order tag of the returned variant's kind. -/
theorem DataValue.read_tag_of_ok {t : Byte} {s s' : List Byte}
    {v : DataValue} (h : DataValue.read (t :: s) = .ok (v, s')) :
    t = valueTag v.kind := by
  rw [DataValue.read] at h
  simp only [read_u8] at h
  repeat' split at h
  all_goals (try cases h)
  all_goals simp_all [valueTag, DataValue.kind]

/-- The first emitted byte of any `DataValue` encoding is the
declaration-order tag of its kind. -/
theorem DataValue.write_head (v : DataValue) :
    v.write.head? = some (valueTag v.kind) := by
  cases v <;> rfl

/-! ## Oversized nodes and duplicate keys -/

theorem writeList_append (a b : List DataElement) :
    writeList (a ++ b) = writeList a ++ writeList b := by
  induction a with
  | nil => simp [writeList]
  | cons x t ih => simp [writeList, ih]

theorem writeFields_append (a b : List (DataValue × DataElement)) :
    writeFields (a ++ b) = writeFields a ++ writeFields b := by
  induction a with
  | nil => simp [writeFields]
  | cons p t ih =>
    obtain ⟨k, v⟩ := p
    simp [writeFields, ih]

theorem akeys_ainsert_of_mem {K V : Type} [DecidableEq K] (k : K) (v : V) :
    ∀ (l : List (K × V)), k ∈ akeys l → akeys (ainsert l k v) = akeys l := by
  intro l
  induction l with
  | nil => intro h; cases h
  | cons p t ih =>
    intro h
    obtain ⟨k', v'⟩ := p
    rw [ainsert]
    by_cases he : k' = k
    · subst he
      simp [akeys]
    · rw [if_neg he]
      have hm : k ∈ akeys t := by
        rcases (by simpa [akeys] using h : k = k' ∨ k ∈ akeys t) with h' | h'
        · exact absurd h'.symm he
        · exact h'
      have ht := ih hm
      simp only [akeys, List.map_cons] at ht ⊢
      rw [ht]

theorem length_ainsert_of_mem {K V : Type} [DecidableEq K]
    {l : List (K × V)} {k : K} (v : V) (h : k ∈ akeys l) :
    (ainsert l k v).length = l.length := by
  have h1 : (akeys (ainsert l k v)).length = (akeys l).length := by
    rw [akeys_ainsert_of_mem k v l h]
  simpa [akeys] using h1

theorem length_ainsert_le {K V : Type} [DecidableEq K]
    (l : List (K × V)) (k : K) (v : V) :
    (ainsert l k v).length ≤ l.length + 1 := by
  induction l with
  | nil => simp [ainsert]
  | cons p t ih =>
    obtain ⟨k', v'⟩ := p
    rw [ainsert]
    by_cases he : k' = k
    · simp [he]
    · rw [if_neg he]
      simp only [List.length_cons]
      omega

theorem mem_akeys_ainsert {K V : Type} [DecidableEq K]
    {l : List (K × V)} {a k : K} (v : V) :
    a ∈ akeys (ainsert l k v) ↔ a ∈ akeys l ∨ a = k := by
  induction l with
  | nil => simp [ainsert, akeys]
  | cons p t ih =>
    obtain ⟨k', v'⟩ := p
    rw [ainsert]
    by_cases he : k' = k
    · subst he
      simp [akeys]
      tauto
    · rw [if_neg he]
      simp [akeys] at ih ⊢
      tauto

theorem length_foldl_ainsert_le {K V : Type} [DecidableEq K]
    (ps acc : List (K × V)) :
    (ps.foldl (fun m p => ainsert m p.1 p.2) acc).length ≤
      acc.length + ps.length := by
  induction ps generalizing acc with
  | nil => simp
  | cons p t ih =>
    rw [List.foldl_cons]
    have h1 := length_ainsert_le acc p.1 p.2
    have h2 := ih (ainsert acc p.1 p.2)
    simp only [List.length_cons]
    omega

/-- Rebuilding from pairs whose key list has a duplicate — or whose head
keys already occur in the accumulator — yields strictly fewer entries than
`|acc| + |ps|`. -/
theorem length_foldl_ainsert_lt {K V : Type} [DecidableEq K] :
    ∀ (ps acc : List (K × V)),
      ((∃ p ∈ ps, p.1 ∈ akeys acc) ∨ ¬ (akeys ps).Nodup) →
      (ps.foldl (fun m p => ainsert m p.1 p.2) acc).length <
        acc.length + ps.length := by
  intro ps
  induction ps with
  | nil =>
    intro acc h
    rcases h with ⟨p, hp, _⟩ | h
    · cases hp
    · simp [akeys] at h
  | cons p t ih =>
    intro acc h
    obtain ⟨k, v⟩ := p
    rw [List.foldl_cons]
    simp only [List.length_cons]
    by_cases hmem : k ∈ akeys acc
    · have h1 : (ainsert acc k v).length = acc.length :=
        length_ainsert_of_mem v hmem
      have h2 := length_foldl_ainsert_le t (ainsert acc k v)
      omega
    · have h1 : (ainsert acc k v).length ≤ acc.length + 1 :=
        length_ainsert_le acc k v
      have hdisj : (∃ q ∈ t, q.1 ∈ akeys (ainsert acc k v)) ∨
          ¬ (akeys t).Nodup := by
        rcases h with ⟨q, hq, hqk⟩ | hnd
        · rcases List.mem_cons.mp hq with h' | h'
          · subst h'
            exact absurd hqk hmem
          · exact Or.inl ⟨q, h', (mem_akeys_ainsert v).mpr (Or.inl hqk)⟩
        · by_cases hkt : k ∈ akeys t
          · rw [akeys, List.mem_map] at hkt
            obtain ⟨x, hx, hxk⟩ := hkt
            refine Or.inl ⟨x, hx, ?_⟩
            rw [mem_akeys_ainsert]
            exact Or.inr hxk
          · refine Or.inr fun hnodup => hnd ?_
            simp only [akeys, List.map_cons, List.nodup_cons]
            exact ⟨by simpa [akeys] using hkt, by simpa [akeys] using hnodup⟩
      have h2 := ih (ainsert acc k v) hdisj
      omega

theorem textWFList_mem {x : DataElement} {xs : List DataElement}
    (h : textWFList xs = true) (hx : x ∈ xs) : x.textWF = true := by
  induction xs with
  | nil => cases hx
  | cons y t ih =>
    rw [textWFList, Bool.and_eq_true] at h
    rcases List.mem_cons.mp hx with h' | h'
    · subst h'; exact h.1
    · exact ih h.2 h'

theorem textWFFields_mem {p : DataValue × DataElement}
    {fs : List (DataValue × DataElement)}
    (h : textWFFields fs = true) (hp : p ∈ fs) :
    (∃ s, p.1 = .String s) ∧ p.2.textWF = true := by
  induction fs with
  | nil => cases hp
  | cons q t ih =>
    obtain ⟨k, v⟩ := q
    rcases List.mem_cons.mp hp with h' | h'
    · subst h'
      cases k with
      | String s =>
        simp only [textWFFields, Bool.and_eq_true] at h
        exact ⟨⟨s, rfl⟩, h.1.2⟩
      | Bool b => simp [textWFFields] at h
      | U8 u => simp [textWFFields] at h
      | U16 u => simp [textWFFields] at h
      | U32 u => simp [textWFFields] at h
      | U64 u => simp [textWFFields] at h
      | U128 u => simp [textWFFields] at h
      | Hash hh => simp [textWFFields] at h
    · refine ih ?_ h'
      cases k with
      | String s =>
        simp only [textWFFields, Bool.and_eq_true] at h
        exact h.2
      | Bool b => simp [textWFFields] at h
      | U8 u => simp [textWFFields] at h
      | U16 u => simp [textWFFields] at h
      | U32 u => simp [textWFFields] at h
      | U64 u => simp [textWFFields] at h
      | U128 u => simp [textWFFields] at h
      | Hash hh => simp [textWFFields] at h

/-- Untagged textual round-trip for a canonical `DataValue`. -/
theorem decode_encode_text_value {v : DataValue}
    (h : textCanonical v = true) :
    DataValue.decode_text v.encode_text = some v := by
  cases v with
  | Bool b => rfl
  | String s => rfl
  | U8 w =>
    simp [DataValue.encode_text, DataValue.decode_text, w.isLt]
  | U16 w =>
    rw [textCanonical] at h
    have h' : 2 ^ 8 ≤ w.val := of_decide_eq_true h
    have h8 : ¬ w.val < 256 := by norm_num at h' ⊢; omega
    simp [DataValue.encode_text, DataValue.decode_text, h8, w.isLt]
  | U32 w =>
    rw [textCanonical] at h
    have h' : 2 ^ 16 ≤ w.val := of_decide_eq_true h
    have h16 : ¬ w.val < 65536 := by norm_num at h' ⊢; omega
    have h8 : ¬ w.val < 256 := by omega
    simp [DataValue.encode_text, DataValue.decode_text, h8, h16, w.isLt]
  | U64 w =>
    rw [textCanonical] at h
    have h' : 2 ^ 32 ≤ w.val := of_decide_eq_true h
    have h32 : ¬ w.val < 4294967296 := by norm_num at h' ⊢; omega
    have h16 : ¬ w.val < 65536 := by omega
    have h8 : ¬ w.val < 256 := by omega
    simp [DataValue.encode_text, DataValue.decode_text, h8, h16, h32, w.isLt]
  | U128 w =>
    rw [textCanonical] at h
    have h' : 2 ^ 64 ≤ w.val := of_decide_eq_true h
    have h64 : ¬ w.val < 18446744073709551616 := by norm_num at h' ⊢; omega
    have h32 : ¬ w.val < 4294967296 := by omega
    have h16 : ¬ w.val < 65536 := by omega
    have h8 : ¬ w.val < 256 := by omega
    simp [DataValue.encode_text, DataValue.decode_text, h8, h16, h32, h64,
      w.isLt]
  | Hash hh => cases h

theorem decodeArrText_encode :
    ∀ (xs : List DataElement),
      (∀ x ∈ xs, DataElement.decode_text x.encode_text = some x) →
      decodeArrText (encodeArrText xs) = some xs := by
  intro xs
  induction xs with
  | nil => intro _; rfl
  | cons x t ih =>
    intro h
    rw [encodeArrText, decodeArrText, h x (List.mem_cons_self x t),
      ih fun y hy => h y (List.mem_cons_of_mem x hy)]

theorem decodeObjText_encode :
    ∀ (fs : List (DataValue × DataElement))
      (acc : List (DataValue × DataElement)),
      (∀ p ∈ fs, (∃ s, p.1 = .String s) ∧
        DataElement.decode_text p.2.encode_text = some p.2) →
      decodeObjText acc (encodeObjText fs) =
        some (fs.foldl (fun m p => ainsert m p.1 p.2) acc) := by
  intro fs
  induction fs with
  | nil => intro acc _; rfl
  | cons p t ih =>
    intro acc h
    obtain ⟨k, v⟩ := p
    have h1 := h (k, v) (List.mem_cons_self _ t)
    obtain ⟨⟨s, hs⟩, hdec⟩ := h1
    subst hs
    rw [encodeObjText, decodeObjText]
    simp only at hdec ⊢
    rw [hdec]
    simp only []
    rw [ih (ainsert acc (.String (keyText (.String s))) v)
      fun q hq => h q (List.mem_cons_of_mem _ hq)]
    rfl

/-- Untagged textual round-trip for a textually well-formed
`DataElement`, by strong induction on size. -/
theorem decode_encode_textN :
    ∀ (n : Nat) (e : DataElement), sizeOf e ≤ n → e.textWF = true →
      DataElement.decode_text e.encode_text = some e := by
  intro n
  induction n using Nat.strong_induction_on with
  | _ n IH =>
    intro e hsz hwf
    have hIH : ∀ e' : DataElement, sizeOf e' < sizeOf e →
        e'.textWF = true →
        DataElement.decode_text e'.encode_text = some e' := by
      intro e' hlt hwf'
      have h1 : sizeOf e' ≤ sizeOf e' := le_refl _
      have h2 : sizeOf e' < n := Nat.lt_of_lt_of_le hlt hsz
      exact IH (sizeOf e') h2 e' h1 hwf'
    cases e with
    | Value v =>
      cases v with
      | none => rfl
      | some w =>
        have hc : textCanonical w = true := by
          rwa [DataElement.textWF] at hwf
        have hv := decode_encode_text_value hc
        cases w with
        | Bool b => rfl
        | String s => rfl
        | U8 u =>
          rw [DataElement.encode_text, DataValue.encode_text]
          rw [DataValue.encode_text] at hv
          rw [DataElement.decode_text, hv]
        | U16 u =>
          rw [DataElement.encode_text, DataValue.encode_text]
          rw [DataValue.encode_text] at hv
          rw [DataElement.decode_text, hv]
        | U32 u =>
          rw [DataElement.encode_text, DataValue.encode_text]
          rw [DataValue.encode_text] at hv
          rw [DataElement.decode_text, hv]
        | U64 u =>
          rw [DataElement.encode_text, DataValue.encode_text]
          rw [DataValue.encode_text] at hv
          rw [DataElement.decode_text, hv]
        | U128 u =>
          rw [DataElement.encode_text, DataValue.encode_text]
          rw [DataValue.encode_text] at hv
          rw [DataElement.decode_text, hv]
        | Hash hh => cases hc
    | Array xs =>
      have hmem : ∀ x ∈ xs, DataElement.decode_text x.encode_text = some x := by
        intro x hx
        have hlt : sizeOf x < sizeOf (DataElement.Array xs) := by
          have := List.sizeOf_lt_of_mem hx
          simp only [DataElement.Array.sizeOf_spec]
          omega
        exact hIH x hlt (textWFList_mem (by rwa [DataElement.textWF] at hwf) hx)
      rw [DataElement.encode_text, DataElement.decode_text,
        decodeArrText_encode xs hmem]
    | Fields fs =>
      rw [DataElement.textWF, Bool.and_eq_true] at hwf
      have hmem : ∀ p ∈ fs, (∃ s, p.1 = .String s) ∧
          DataElement.decode_text p.2.encode_text = some p.2 := by
        intro p hp
        have hh := textWFFields_mem hwf.2 hp
        refine ⟨hh.1, ?_⟩
        have hlt : sizeOf p.2 < sizeOf (DataElement.Fields fs) := by
          have h1 := List.sizeOf_lt_of_mem hp
          have h2 : sizeOf p.2 < sizeOf p := by
            obtain ⟨k, v⟩ := p
            simp only [Prod.mk.sizeOf_spec]
            omega
          simp only [DataElement.Fields.sizeOf_spec]
          omega
        exact hIH p.2 hlt hh.2
      rw [DataElement.encode_text, DataElement.decode_text,
        decodeObjText_encode fs [] hmem,
        foldl_ainsert_nodup (by simpa using of_decide_eq_true hwf.1)]
      simp

/-! ## `total_spent` characterizations -/

theorem alookup_ainsert {K V : Type} [DecidableEq K]
    (m : List (K × V)) (k : K) (v : V) (a : K) :
    alookup (ainsert m k v) a = if a = k then some v else alookup m a := by
  induction m with
  | nil =>
    by_cases h : a = k <;> simp_all [ainsert, alookup, eq_comm]
  | cons p t ih =>
    obtain ⟨k', v'⟩ := p
    by_cases h1 : k' = k <;> by_cases h3 : a = k <;>
      simp_all [ainsert, alookup, eq_comm]

/-- Looking up after inserting a list of pairs in order: the last pair
written for the key wins; keys never written fall back to the
accumulator. -/
theorem alookup_foldl_ainsert {K V : Type} [DecidableEq K] :
    ∀ (l acc : List (K × V)) (a : K),
      alookup (l.foldl (fun m p => ainsert m p.1 p.2) acc) a =
        match l.reverse.find? fun p => decide (p.1 = a) with
        | some p => some p.2
        | none => alookup acc a := by
  intro l
  induction l with
  | nil => intro acc a; rfl
  | cons p t ih =>
    intro acc a
    obtain ⟨k, v⟩ := p
    rw [List.foldl_cons]
    simp only
    rw [ih (ainsert acc k v) a]
    rw [List.reverse_cons, List.find?_append]
    cases hf : t.reverse.find? fun p => decide (p.1 = a) with
    | some q => simp [hf]
    | none =>
      simp only [hf, Option.none_orElse]
      by_cases ha : k = a
      · subst ha
        simp [alookup_ainsert]
      · simp only [List.find?_cons, List.find?_nil]
        rw [show (decide ((k, v).1 = a)) = false by simpa using ha]
        simp [alookup_ainsert]
        intro h
        exact absurd h fun h' => ha h'.symm

theorem alookup_aentry_add (m : List (Hash × Nat)) (k : Hash) (amt : Nat)
    (a : Hash) :
    alookup (aentry_add m k amt) a =
      if a = k then some (((alookup m k).getD 0 + amt) % 2 ^ 64)
      else alookup m a := by
  induction m with
  | nil =>
    by_cases h : a = k <;> simp_all [aentry_add, alookup, eq_comm]
  | cons p t ih =>
    obtain ⟨k', v'⟩ := p
    by_cases h1 : k' = k <;> by_cases h3 : a = k <;>
      simp_all [aentry_add, alookup, eq_comm]

theorem alookup_foldl_aentry_add :
    ∀ (txs : List Transfer) (acc : List (Hash × Nat)) (a : Hash),
      alookup (txs.foldl (fun m tx => aentry_add m tx.asset tx.amount) acc) a =
        if a ∈ txs.map (fun tx => tx.asset) then
          some (((alookup acc a).getD 0 +
            ((txs.filter fun tx => tx.asset = a).map
              fun tx => tx.amount).sum) % 2 ^ 64)
        else alookup acc a := by
  intro txs
  induction txs with
  | nil =>
    intro acc a
    rw [List.foldl_nil, List.map_nil]
    simp
  | cons tx t ih =>
    intro acc a
    rw [List.foldl_cons]
    rw [ih (aentry_add acc tx.asset tx.amount) a]
    by_cases ha : a = tx.asset
    · subst ha
      have hacc : alookup (aentry_add acc tx.asset tx.amount) tx.asset =
          some (((alookup acc tx.asset).getD 0 + tx.amount) % 2 ^ 64) := by
        rw [alookup_aentry_add, if_pos rfl]
      by_cases hmem : tx.asset ∈ t.map fun tx => tx.asset
      · rw [if_pos hmem, if_pos (by simp), hacc]
        simp only [Option.getD_some]
        rw [List.filter_cons_of_pos (by simp), List.map_cons, List.sum_cons]
        congr 1
        rw [Nat.mod_add_mod]
        ring_nf
      · rw [if_neg hmem, if_pos (by simp), hacc]
        have hfil : (t.filter fun tx' => tx'.asset = tx.asset) = [] := by
          rw [List.filter_eq_nil_iff]
          intro x hx
          simp only [decide_eq_true_eq]
          intro he
          exact hmem (by
            rw [List.mem_map]
            exact ⟨x, hx, he⟩)
        rw [List.filter_cons_of_pos (by simp), hfil]
        simp
    · have hacc : alookup (aentry_add acc tx.asset tx.amount) a =
          alookup acc a := by
        rw [alookup_aentry_add, if_neg ha]
      rw [hacc]
      have hmm : (a ∈ (tx :: t).map fun tx => tx.asset) ↔
          (a ∈ t.map fun tx => tx.asset) := by
        simp only [List.map_cons, List.mem_cons]
        constructor
        · rintro (h | h)
          · exact absurd h ha
          · exact h
        · exact Or.inr
      rw [List.filter_cons_of_neg (by simpa using fun h => ha h.symm)]
      by_cases hmem : a ∈ t.map fun tx => tx.asset
      · rw [if_pos hmem, if_pos (hmm.mpr hmem)]
      · rw [if_neg hmem, if_neg fun h => hmem (hmm.mp h)]

/-! ## The claims -/

/-- Claim C1: for every `TransactionBuilder` whose `build` succeeds, the
signed bytes are exactly `{owner || payload || fixed 8-byte fee}` in that
order with no other fields; the fee embedded in the returned transaction
equals `estimate_fees()` on the same builder state; and `estimate_fees()`
called twice in a row on an unmodified builder returns identical
values. -/
theorem claim_C1 (calculate_tx_fee : Nat → Nat)
    (data_write : TransactionType → List Byte)
    (b : TransactionBuilder) (kp : KeyPair) (tx : Transaction)
    (h : b.build calculate_tx_fee data_write kp = .ok tx) :
    tx.signature =
      kp.sign (b.owner ++ data_write b.data ++ toBE 8 tx.fee) ∧
    tx.fee = b.estimate_fees calculate_tx_fee data_write ∧
    b.estimate_fees calculate_tx_fee data_write =
      b.estimate_fees calculate_tx_fee data_write := by
  rw [TransactionBuilder.build] at h
  repeat' split at h
  all_goals cases h
  all_goals refine ⟨?_, rfl, rfl⟩
  all_goals
    simp [TransactionBuilder.serialize, TransactionBuilder.estimate_fees,
      List.append_assoc]

/-- Witness for C1 at a concrete builder: a Burn payload, identity
signing function, constant pricing. -/
theorem claim_C1_witness :
    (⟨[], .Burn exHashA 5, 1⟩ : TransactionBuilder).build
        (fun _ => 10) (fun _ => []) ⟨[], fun bs => bs⟩ =
      .ok ⟨[], .Burn exHashA 5, 10, 0, toBE 8 10⟩ ∧
    ((⟨[], .Burn exHashA 5, 10, 0, toBE 8 10⟩ : Transaction).signature =
      (fun bs => bs)
        (([] : List Byte) ++ ([] : List Byte) ++ toBE 8 (10 : Nat)) ∧
      (10 : Nat) =
        TransactionBuilder.estimate_fees (fun _ => 10) (fun _ => [])
          ⟨[], .Burn exHashA 5, 1⟩ ∧
      TransactionBuilder.estimate_fees (fun _ => 10) (fun _ => [])
          ⟨[], .Burn exHashA 5, 1⟩ =
        TransactionBuilder.estimate_fees (fun _ => 10) (fun _ => [])
          ⟨[], .Burn exHashA 5, 1⟩) := by
  have hbuild : (⟨[], .Burn exHashA 5, 1⟩ : TransactionBuilder).build
      (fun _ => 10) (fun _ => []) ⟨[], fun bs => bs⟩ =
      .ok ⟨[], .Burn exHashA 5, 10, 0, toBE 8 10⟩ := by
    rw [TransactionBuilder.build]
    norm_num [TransactionBuilder.serialize,
      TransactionBuilder.estimate_fees_internal, f64_as_u64, SIGNATURE_LENGTH]
    exact ⟨rfl, rfl⟩
  exact ⟨hbuild,
    claim_C1 (fun _ => 10) (fun _ => []) ⟨[], .Burn exHashA 5, 1⟩
      ⟨[], fun bs => bs⟩ ⟨[], .Burn exHashA 5, 10, 0, toBE 8 10⟩ hbuild⟩

/-- Claim C3: `build(keypair)` fails without producing a transaction
exactly in these cases — a key-mismatch error when the key-pair's public
key differs from the builder's owner; an empty-transfer error when the
payload is a Transfer list with zero entries; a self-transfer error when
some transfer's recipient equals the owner; otherwise (Burn,
CallContract, DeployContract, or a valid non-empty Transfer list) it
returns a signed transaction. -/
theorem claim_C3 (calculate_tx_fee : Nat → Nat)
    (data_write : TransactionType → List Byte)
    (b : TransactionBuilder) (kp : KeyPair) :
    (b.build calculate_tx_fee data_write kp = .error .InvalidKeyPair ↔
      kp.public_key ≠ b.owner) ∧
    (b.build calculate_tx_fee data_write kp = .error .ExpectedOneTx ↔
      kp.public_key = b.owner ∧ b.data = .Transfer []) ∧
    (b.build calculate_tx_fee data_write kp = .error .TxOwnerIsReceiver ↔
      kp.public_key = b.owner ∧
      ∃ txs, b.data = .Transfer txs ∧ txs ≠ [] ∧
        ∃ t ∈ txs, t.to_key = b.owner) ∧
    ((∃ tx, b.build calculate_tx_fee data_write kp = .ok tx) ↔
      kp.public_key = b.owner ∧
      ∀ txs, b.data = .Transfer txs →
        txs ≠ [] ∧ ∀ t ∈ txs, t.to_key ≠ b.owner) := by
  rw [TransactionBuilder.build]
  by_cases hk : kp.public_key = b.owner
  · rw [if_neg (by simpa using hk)]
    cases hd : b.data with
    | Transfer txs =>
      by_cases hlen : txs.length = 0
      · have htxs : txs = [] := List.length_eq_zero.mp hlen
        subst htxs
        simp [hk]
      · by_cases hany : (txs.any fun tx => decide (tx.to_key = b.owner)) = true
        · simp only [List.any_eq_true, decide_eq_true_eq] at hany
          simp [hk, hlen, hany, List.length_eq_zero.not.mp hlen]
        · simp only [List.any_eq_true, decide_eq_true_eq] at hany
          have hall : ∀ x ∈ txs, x.to_key ≠ b.owner := by
            intro x hx he
            exact hany ⟨x, hx, he⟩
          simp [hk, hlen, hany, hall, List.length_eq_zero.not.mp hlen]
          exact hall
    | Burn asset amount => simp [hk]
    | CallContract call => simp [hk]
    | DeployContract code => simp [hk]
  · rw [if_pos (by simpa using hk)]
    simp [hk]

/-- Claim C8: the fee computed by `estimate_fees` (and embedded by
`build`, per C1) equals `calculate_tx_fee(SIGNATURE_LENGTH + 8 +
length of the base encoding of {owner, payload})` multiplied by the
builder's fee multiplier and truncated — not rounded — to an unsigned
integer (stated below the `u64` saturation bound); e.g. base fee 10 with
multiplier 1.25 yields fee 12, not 13. The `f64` multiplier is modelled
as an exact rational; truncation of the non-negative product is
`Int.toNat ∘ floor`. -/
theorem claim_C8 (calculate_tx_fee : Nat → Nat)
    (data_write : TransactionType → List Byte)
    (b : TransactionBuilder) :
    ((⌊(calculate_tx_fee
          (SIGNATURE_LENGTH + 8 + (b.owner ++ data_write b.data).length) : ℚ)
        * b.fee_multiplier⌋.toNat ≤ 2 ^ 64 - 1) →
      b.estimate_fees calculate_tx_fee data_write =
        ⌊(calculate_tx_fee
            (SIGNATURE_LENGTH + 8 + (b.owner ++ data_write b.data).length) : ℚ)
          * b.fee_multiplier⌋.toNat) ∧
    (b.fee_multiplier = 5 / 4 → (∀ n, calculate_tx_fee n = 10) →
      b.estimate_fees calculate_tx_fee data_write = 12) := by
  constructor
  · intro hle
    rw [TransactionBuilder.estimate_fees, TransactionBuilder.serialize,
      TransactionBuilder.estimate_fees_internal, f64_as_u64]
    exact min_eq_left hle
  · intro hm hcf
    rw [TransactionBuilder.estimate_fees, TransactionBuilder.serialize,
      TransactionBuilder.estimate_fees_internal, f64_as_u64, hcf, hm]
    norm_num
    rfl

/-- Witness for C8 at a concrete builder: multiplier `5/4`, constant
pricing `10`; the truncation example gives fee `12`, and the general
formula instantiates there too. -/
theorem claim_C8_witness :
    TransactionBuilder.estimate_fees (fun _ => 10) (fun _ => [])
        ⟨[], .Burn exHashA 5, 5 / 4⟩ = 12 ∧
    TransactionBuilder.estimate_fees (fun _ => 10) (fun _ => [])
        ⟨[], .Burn exHashA 5, 5 / 4⟩ =
      Int.toNat ⌊((10 : Nat) : ℚ) * (5 / 4 : ℚ)⌋ := by
  constructor
  · exact (claim_C8 (fun _ => 10) (fun _ => [])
      ⟨[], .Burn exHashA 5, 5 / 4⟩).2 rfl fun _ => rfl
  · refine (claim_C8 (fun _ => 10) (fun _ => [])
      ⟨[], .Burn exHashA 5, 5 / 4⟩).1 ?_
    norm_num

/-- Claim C4: `total_spent` returns, for a Transfer payload, the
per-asset sum of amounts across all transfers (stated below the `u64`
wrap bound); for a Burn of `(asset, amount)`, the singleton map
`{asset: amount}`; for a CallContract, one entry per `(asset, amount)`
pair in the call's asset list where a later pair with the same asset
overwrites an earlier one (last write wins, not summed); and for
DeployContract, the empty map. -/
theorem claim_C4 :
    (∀ (o : PublicKey) (q : ℚ) (txs : List Transfer) (a : Hash),
      ((txs.filter fun tx => tx.asset = a).map fun tx => tx.amount).sum
          < 2 ^ 64 →
      alookup (TransactionBuilder.total_spent ⟨o, .Transfer txs, q⟩) a =
        if a ∈ txs.map fun tx => tx.asset then
          some (((txs.filter fun tx => tx.asset = a).map
            fun tx => tx.amount).sum)
        else none) ∧
    (∀ (o : PublicKey) (q : ℚ) (asset : Hash) (amount : Nat),
      TransactionBuilder.total_spent ⟨o, .Burn asset amount, q⟩ =
        [(asset, amount)]) ∧
    (∀ (o : PublicKey) (q : ℚ) (call : ContractCall) (a : Hash),
      alookup (TransactionBuilder.total_spent ⟨o, .CallContract call, q⟩) a =
        match call.assets.reverse.find? fun p => decide (p.1 = a) with
        | some p => some p.2
        | none => none) ∧
    (∀ (o : PublicKey) (q : ℚ) (code : RString),
      TransactionBuilder.total_spent ⟨o, .DeployContract code, q⟩ = []) := by
  refine ⟨?_, ?_, ?_, ?_⟩
  · intro o q txs a hfit
    rw [TransactionBuilder.total_spent]
    rw [alookup_foldl_aentry_add txs [] a]
    by_cases hmem : a ∈ txs.map fun tx => tx.asset
    · rw [if_pos hmem, if_pos hmem]
      simp only [alookup, Option.getD_none, Nat.zero_add]
      rw [Nat.mod_eq_of_lt hfit]
    · rw [if_neg hmem, if_neg hmem]
      rfl
  · intro o q asset amount
    rfl
  · intro o q call a
    rw [TransactionBuilder.total_spent]
    rw [alookup_foldl_ainsert call.assets [] a]
    cases hf : call.assets.reverse.find? fun p => decide (p.1 = a) with
    | some p => simp [hf]
    | none => simp [hf, alookup]
  · intro o q code
    rfl

/-- Witness for C4 on the spec's example: a Transfer list
`[(A,5),(A,7),(B,3)]` totals `{A: 12, B: 3}`. -/
theorem claim_C4_witness :
    ((([(⟨5, exHashA, []⟩ : Transfer), ⟨7, exHashA, []⟩,
        ⟨3, exHashB, []⟩].filter fun tx => tx.asset = exHashA).map
          fun tx => tx.amount).sum < 2 ^ 64) ∧
    alookup (TransactionBuilder.total_spent
        ⟨[], .Transfer [⟨5, exHashA, []⟩, ⟨7, exHashA, []⟩, ⟨3, exHashB, []⟩],
          1⟩) exHashA = some 12 ∧
    alookup (TransactionBuilder.total_spent
        ⟨[], .Transfer [⟨5, exHashA, []⟩, ⟨7, exHashA, []⟩, ⟨3, exHashB, []⟩],
          1⟩) exHashB = some 3 ∧
    TransactionBuilder.total_spent ⟨[], .Burn exHashA 10, 1⟩ =
      [(exHashA, 10)] ∧
    TransactionBuilder.total_spent ⟨[], .DeployContract [], 1⟩ = [] := by
  have hAB : exHashA ≠ exHashB := by decide
  refine ⟨?_, ?_, ?_,
    (claim_C4.2.1 [] 1 exHashA 10),
    (claim_C4.2.2.2 [] 1 [])⟩
  · decide
  · rw [claim_C4.1 [] 1 _ exHashA (by decide)]
    rw [if_pos (by simp [exHashA, exHashB])]
    decide
  · rw [claim_C4.1 [] 1 _ exHashB (by decide)]
    rw [if_pos (by simp [exHashA, exHashB])]
    decide

/-- Claim C6: `get_value(name, T)` returns the contained `DataValue`
exactly when `self` is a `Fields` node, the key `DataValue::String(name)`
is present, the mapped value is a non-null `Value` leaf, and the leaf's
`kind()` equals `T`; in every other case (non-Fields node, missing name,
Array/Fields value at that name, null leaf, or kind mismatch) it
uniformly returns absent. The model is a pure function over an immutable
tree, so the lookup cannot mutate it. -/
theorem claim_C6 (e : DataElement) (name : RString) (T : DataType)
    (v : DataValue) :
    e.get_value name T = some v ↔
      ∃ fs, e = .Fields fs ∧
        alookup fs (.String name) = some (.Value (some v)) ∧ v.kind = T := by
  cases e with
  | Value w => simp [DataElement.get_value]
  | Array xs => simp [DataElement.get_value]
  | Fields fs =>
    rw [DataElement.get_value]
    cases hl : alookup fs (.String name) with
    | none => simp [hl]
    | some d =>
      cases d with
      | Value w =>
        cases w with
        | none => simp [hl]
        | some u =>
          by_cases hk : u.kind = T
          · simp [hl, hk]
            intro h
            subst h
            exact hk
          · simp [hl, hk]
            intro h
            subst h
            exact hk
      | Array xs => simp [hl]
      | Fields fs2 => simp [hl]

/-- Claim C2: for every `DataValue` (satisfying the Rust representation
bound on string lengths), decoding the binary encoding yields the value
back; and for every `DataElement` tree (with the `HashMap` distinct-keys
invariant) in which every Array and Fields node has at most 255 direct
children, decoding the binary encoding yields an element equal to the
original. -/
theorem claim_C2 :
    (∀ v : DataValue, v.WF → DataValue.read v.write = .ok (v, [])) ∧
    (∀ e : DataElement, e.wfkeys = true → e.wf255 = true →
      DataElement.read e.write = .ok (e, [])) := by
  constructor
  · intro v hv
    have h := DataValue.read_of_write (v := v) [] hv
    rwa [List.append_nil] at h
  · intro e hk h255
    have h := DataElement.elem_read_of_write (e := e) [] hk h255
    rwa [List.append_nil] at h

/-- Witness for C2: a string value, and a mixed nested tree (a `Fields`
map holding an array of a `U8` leaf and a null leaf). -/
theorem claim_C2_witness :
    ((DataValue.String [104, 105]).WF ∧
      DataValue.read (DataValue.String [104, 105]).write =
        .ok (.String [104, 105], [])) ∧
    ((DataElement.Fields [(.String [97],
        .Array [.Value (some (.U8 7)), .Value none])]).wfkeys = true ∧
      (DataElement.Fields [(.String [97],
        .Array [.Value (some (.U8 7)), .Value none])]).wf255 = true ∧
      DataElement.read (DataElement.Fields [(.String [97],
          .Array [.Value (some (.U8 7)), .Value none])]).write =
        .ok (.Fields [(.String [97],
          .Array [.Value (some (.U8 7)), .Value none])], [])) := by
  have hwfv : (DataValue.String [104, 105]).WF := by
    rw [DataValue.WF]
    norm_num
  have hk : (DataElement.Fields [(.String [97],
      .Array [.Value (some (.U8 7)), .Value none])]).wfkeys = true := by
    rw [DataElement.wfkeys]
    rw [wfkeysFields, wfkeysFields]
    rw [DataElement.wfkeys]
    rw [wfkeysList, wfkeysList, wfkeysList]
    rw [DataElement.wfkeys, DataElement.wfkeys]
    simp [akeys, DataValue.WF]
  have h255 : (DataElement.Fields [(.String [97],
      .Array [.Value (some (.U8 7)), .Value none])]).wf255 = true := by
    rw [DataElement.wf255]
    rw [wf255Fields, wf255Fields]
    rw [DataElement.wf255]
    rw [wf255List, wf255List, wf255List]
    rw [DataElement.wf255, DataElement.wf255]
    simp
  exact ⟨⟨hwfv, claim_C2.1 _ hwfv⟩, hk, h255, claim_C2.2 _ hk h255⟩

/-- Claim C7: binary decoding fails with a decode error (never silently
defaults) on an unknown leading tag byte — a `DataElement` tag outside
`{0,1,2}` and a `DataValue` tag `8` or above each give the invalid-value
decode error — and tag bytes `0..7` map to Bool, String, U8, U16, U32,
U64, U128, Hash in that exact order (the emitted tag of every variant is
its declaration-order tag, and every successful parse consumed exactly
the tag of the variant it returned). -/
theorem claim_C7 :
    (∀ (t : Byte) (s : List Byte), 8 ≤ t.val →
      DataValue.read (t :: s) = .error .InvalidValue) ∧
    (∀ (t : Byte) (s : List Byte), 3 ≤ t.val →
      DataElement.read (t :: s) = .error .InvalidValue) ∧
    (∀ v : DataValue, v.write.head? = some (valueTag v.kind)) ∧
    (∀ (t : Byte) (s s2 : List Byte) (v : DataValue),
      DataValue.read (t :: s) = .ok (v, s2) → t = valueTag v.kind) := by
  refine ⟨?_, ?_, DataValue.write_head, fun t s s2 v h => DataValue.read_tag_of_ok h⟩
  · intro t s ht
    exact DataValue.read_bad_tag s ht
  · intro t s ht
    rw [DataElement.read]
    exact readElemF_bad_tag _ s ht

/-- Witness for C7: tag `9` rejects as a `DataValue`, tag `3` rejects as
a `DataElement`, and the `U16` tag `3` parses back to a `U16`. -/
theorem claim_C7_witness :
    DataValue.read (9 :: []) = .error .InvalidValue ∧
    DataElement.read (3 :: []) = .error .InvalidValue ∧
    (DataValue.U16 300).write.head? = some (valueTag (DataValue.U16 300).kind) ∧
    (3 : Byte) = valueTag (DataValue.U16 300).kind := by
  refine ⟨claim_C7.1 9 [] (by decide), claim_C7.2.1 3 [] (by decide),
    claim_C7.2.2.1 (DataValue.U16 300), ?_⟩
  exact claim_C7.2.2.2 3 (toBE 2 300) [] (DataValue.U16 300) (by rfl)

/-- Counterexample to claim C5 as stated: the untagged textual decoding
does not bring every unsigned-integer variant back as the same variant —
`U64 5` serializes to the bare number `5`, which the declaration-order
inference re-reads as `U8 5`. -/
theorem claim_C5_counterexample :
    DataValue.decode_text (DataValue.encode_text (DataValue.U64 5)) =
      some (DataValue.U8 5) ∧
    DataValue.decode_text (DataValue.encode_text (DataValue.U64 5)) ≠
      some (DataValue.U64 5) := by
  constructor
  · rfl
  · intro h
    rw [show DataValue.decode_text (DataValue.encode_text (DataValue.U64 5)) =
        some (DataValue.U8 5) from rfl] at h
    cases h

/-- Claim C5, amended: textual decoding of the textual encoding
reconstructs the original exactly on textually canonical values — `Bool`
and `String` leaves always round-trip (in particular a numeric string
stays a `String`), an unsigned-integer variant round-trips when its value
does not fit an earlier-declared width, a `Hash` leaf never does (its hex
string decodes as `String`) — and on `DataElement` trees whose leaves are
canonical and whose `Fields` keys are distinct `String` values. -/
theorem claim_C5 :
    (∀ v : DataValue, textCanonical v = true →
      DataValue.decode_text v.encode_text = some v) ∧
    (∀ e : DataElement, e.textWF = true →
      DataElement.decode_text e.encode_text = some e) :=
  ⟨fun _ h => decode_encode_text_value h,
   fun e h => decode_encode_textN (sizeOf e) e (le_refl _) h⟩

/-- Witness for C5 (amended) at a canonical `U16` value, a numeric-looking
string, and a `Fields` tree with a `String` key. -/
theorem claim_C5_witness :
    (textCanonical (DataValue.U16 300) = true ∧
      DataValue.decode_text (DataValue.encode_text (DataValue.U16 300)) =
        some (DataValue.U16 300)) ∧
    (textCanonical (DataValue.String [53]) = true ∧
      DataValue.decode_text (DataValue.encode_text (DataValue.String [53])) =
        some (DataValue.String [53])) ∧
    ((DataElement.Fields [(.String [97],
        .Array [.Value (some (.Bool true)), .Value none])]).textWF = true ∧
      DataElement.decode_text
          (DataElement.encode_text (DataElement.Fields [(.String [97],
            .Array [.Value (some (.Bool true)), .Value none])])) =
        some (DataElement.Fields [(.String [97],
          .Array [.Value (some (.Bool true)), .Value none])])) := by
  have h1 : textCanonical (DataValue.U16 300) = true := by decide
  have h2 : textCanonical (DataValue.String [53]) = true := by decide
  have h3 : (DataElement.Fields [(.String [97],
      .Array [.Value (some (.Bool true)), .Value none])]).textWF = true := by
    rw [DataElement.textWF]
    rw [textWFFields, textWFFields]
    rw [DataElement.textWF]
    rw [textWFList, textWFList, textWFList]
    rw [DataElement.textWF, DataElement.textWF]
    simp [akeys, textCanonical]
  exact ⟨⟨h1, claim_C5.1 _ h1⟩, ⟨h2, claim_C5.1 _ h2⟩,
    ⟨h3, claim_C5.2 _ h3⟩⟩

/-- Claim C9: an Array or Fields node with more than 255 direct children
is written without failure or rejection — the child count modulo 256 is
emitted as the single length byte, followed by every child's encoding —
so the count prefix disagrees with the number of encoded children, and
binary decoding of that stream does not return the original element (it
returns a strict truncation, leaving unread bytes). -/
theorem claim_C9 :
    (∀ xs : List DataElement, 255 < xs.length →
      (∀ x ∈ xs, x.wfkeys = true ∧ x.wf255 = true) →
      (DataElement.Array xs).write =
        1 :: byte xs.length :: writeList xs ∧
      (byte xs.length).val = xs.length % 256 ∧
      (byte xs.length).val ≠ xs.length ∧
      DataElement.read (DataElement.Array xs).write =
        .ok (.Array (xs.take (xs.length % 256)),
             writeList (xs.drop (xs.length % 256))) ∧
      DataElement.Array (xs.take (xs.length % 256)) ≠ .Array xs) ∧
    (∀ fs : List (DataValue × DataElement), 255 < fs.length →
      (akeys fs).Nodup →
      (∀ p ∈ fs, p.1.WF ∧ p.2.wfkeys = true ∧ p.2.wf255 = true) →
      (DataElement.Fields fs).write =
        2 :: byte fs.length :: writeFields fs ∧
      (byte fs.length).val = fs.length % 256 ∧
      (byte fs.length).val ≠ fs.length ∧
      DataElement.read (DataElement.Fields fs).write =
        .ok (.Fields (fs.take (fs.length % 256)),
             writeFields (fs.drop (fs.length % 256))) ∧
      DataElement.Fields (fs.take (fs.length % 256)) ≠ .Fields fs) := by
  constructor
  · intro xs hlen hmem
    have hc : xs.length % 256 < xs.length := by
      have h1 : xs.length % 256 < 256 := Nat.mod_lt _ (by norm_num)
      omega
    have hc_le : xs.length % 256 ≤ xs.length := le_of_lt hc
    refine ⟨by rw [DataElement.write], byte_val xs.length, by
      rw [byte_val]; omega, ?_, ?_⟩
    · rw [DataElement.write, DataElement.read]
      simp only [List.length_cons]
      rw [readElemF]
      simp only [read_u8]
      have hsplit : writeList xs =
          writeList (xs.take (xs.length % 256)) ++
            writeList (xs.drop (xs.length % 256)) := by
        rw [← writeList_append, List.take_append_drop]
      have hc_len : (xs.take (xs.length % 256)).length = xs.length % 256 := by
        rw [List.length_take]
        omega
      have hmem2 : ∀ x ∈ xs.take (xs.length % 256),
          x.wfkeys = true ∧ x.wf255 = true ∧
            x.write.length ≤ (writeList xs).length + 1 + 1 := by
        intro x hx
        have hxs : x ∈ xs := List.take_subset _ _ hx
        have h1 := writeList_mem_le hxs
        exact ⟨(hmem x hxs).1, (hmem x hxs).2, by omega⟩
      have harr := readArrF_write ((writeList xs).length + 1 + 1)
        (fun e rest hk h2 hl => readElemF_write _ e rest hk h2 hl)
        (xs.take (xs.length % 256))
        (writeList (xs.drop (xs.length % 256))) hmem2
      rw [hc_len] at harr
      rw [← hsplit] at harr
      simp [byte_val, harr]
    · intro h
      injection h with h'
      have := congrArg List.length h'
      rw [List.length_take] at this
      omega
  · intro fs hlen hnd hmem
    have hc : fs.length % 256 < fs.length := by
      have h1 : fs.length % 256 < 256 := Nat.mod_lt _ (by norm_num)
      omega
    refine ⟨by rw [DataElement.write], byte_val fs.length, by
      rw [byte_val]; omega, ?_, ?_⟩
    · rw [DataElement.write, DataElement.read]
      simp only [List.length_cons]
      rw [readElemF]
      simp only [read_u8]
      have hsplit : writeFields fs =
          writeFields (fs.take (fs.length % 256)) ++
            writeFields (fs.drop (fs.length % 256)) := by
        rw [← writeFields_append, List.take_append_drop]
      have hc_len : (fs.take (fs.length % 256)).length = fs.length % 256 := by
        rw [List.length_take]
        omega
      have hmem2 : ∀ p ∈ fs.take (fs.length % 256),
          p.1.WF ∧ p.2.wfkeys = true ∧ p.2.wf255 = true ∧
            p.2.write.length ≤ (writeFields fs).length + 1 + 1 := by
        intro p hp
        have hfs : p ∈ fs := List.take_subset _ _ hp
        have h1 := writeFields_mem_le hfs
        exact ⟨(hmem p hfs).1, (hmem p hfs).2.1, (hmem p hfs).2.2, by omega⟩
      have hfld := readFieldsF_write ((writeFields fs).length + 1 + 1)
        (fun e rest hk h2 hl => readElemF_write _ e rest hk h2 hl)
        (fs.take (fs.length % 256)) []
        (writeFields (fs.drop (fs.length % 256))) hmem2
      rw [hc_len] at hfld
      rw [← hsplit] at hfld
      have hnd2 : (akeys ([] ++ fs.take (fs.length % 256))).Nodup := by
        simp only [List.nil_append, akeys, List.map_take]
        exact (List.take_sublist _ _).nodup hnd
      rw [foldl_ainsert_nodup hnd2] at hfld
      simp only [List.nil_append] at hfld
      simp [byte_val, hfld]
    · intro h
      injection h with h'
      have := congrArg List.length h'
      rw [List.length_take] at this
      omega

/-- Witness for C9: a 256-element array of null leaves, and a 256-entry
map with distinct `U32` keys; in both, the truncation the length byte
forces makes the decoded element differ from the original. -/
theorem claim_C9_witness :
    (255 < (List.replicate 256 (DataElement.Value none)).length ∧
      DataElement.Array ((List.replicate 256 (DataElement.Value none)).take
          ((List.replicate 256 (DataElement.Value none)).length % 256)) ≠
        .Array (List.replicate 256 (DataElement.Value none))) ∧
    (255 < exBigFields.length ∧
      DataElement.Fields (exBigFields.take (exBigFields.length % 256)) ≠
        .Fields exBigFields) := by
  have hxslen : 255 < (List.replicate 256 (DataElement.Value none)).length := by
    rw [List.length_replicate]
    norm_num
  have hxmem : ∀ x ∈ List.replicate 256 (DataElement.Value none),
      x.wfkeys = true ∧ x.wf255 = true := by
    intro x hx
    rw [List.eq_of_mem_replicate hx]
    exact ⟨by rw [DataElement.wfkeys], by rw [DataElement.wf255]⟩
  have hfslen : 255 < exBigFields.length := by
    rw [exBigFields, List.length_map, List.length_range]
    norm_num
  have hknd : (akeys exBigFields).Nodup := by
    have hmap : akeys exBigFields = (List.range 256).map
        fun i => DataValue.U32 ⟨i % 2 ^ 32, Nat.mod_lt _ (by norm_num)⟩ := by
      simp [exBigFields, akeys, List.map_map]
    rw [hmap]
    refine List.Nodup.map_on ?_ (List.nodup_range 256)
    intro x hx y hy h
    simp only [List.mem_range] at hx hy
    injection h with h2
    have h3 := congrArg Fin.val h2
    simp only at h3
    have hx32 : x < 2 ^ 32 := lt_trans hx (by norm_num)
    have hy32 : y < 2 ^ 32 := lt_trans hy (by norm_num)
    rwa [Nat.mod_eq_of_lt hx32, Nat.mod_eq_of_lt hy32] at h3
  have hfmem : ∀ p ∈ exBigFields,
      p.1.WF ∧ p.2.wfkeys = true ∧ p.2.wf255 = true := by
    intro p hp
    simp only [exBigFields, List.mem_map] at hp
    obtain ⟨i, hi, rfl⟩ := hp
    exact ⟨trivial, by rw [DataElement.wfkeys], by rw [DataElement.wf255]⟩
  exact ⟨⟨hxslen, (claim_C9.1 _ hxslen hxmem).2.2.2.2⟩,
    ⟨hfslen, (claim_C9.2 _ hfslen hknd hfmem).2.2.2.2⟩⟩

/-- Claim C10: a byte stream whose Fields section declares count `n` but
contains duplicate keys is read successfully (no error is reported); each
later `(key, value)` pair with an already-seen key overwrites the earlier
one (`insert` into the map being built), so the resulting Fields node has
fewer than `n` entries. -/
theorem claim_C10 (ps : List (DataValue × DataElement))
    (hlen : ps.length ≤ 255) (hdup : ¬ (akeys ps).Nodup)
    (hmem : ∀ p ∈ ps, p.1.WF ∧ p.2.wfkeys = true ∧ p.2.wf255 = true) :
    DataElement.read (2 :: byte ps.length :: writeFields ps) =
      .ok (.Fields (ps.foldl (fun m p => ainsert m p.1 p.2) []), []) ∧
    (ps.foldl (fun m p => ainsert m p.1 p.2) []).length < ps.length := by
  constructor
  · rw [DataElement.read]
    simp only [List.length_cons]
    rw [readElemF]
    simp only [read_u8]
    have hmem2 : ∀ p ∈ ps, p.1.WF ∧ p.2.wfkeys = true ∧ p.2.wf255 = true ∧
        p.2.write.length ≤ (writeFields ps).length + 1 + 1 := by
      intro p hp
      have h1 := writeFields_mem_le hp
      exact ⟨(hmem p hp).1, (hmem p hp).2.1, (hmem p hp).2.2, by omega⟩
    have hfld := readFieldsF_write ((writeFields ps).length + 1 + 1)
      (fun e rest hk h2 hl => readElemF_write _ e rest hk h2 hl)
      ps [] [] hmem2
    rw [List.append_nil] at hfld
    simp [byte_eq_of_le hlen, hfld]
  · simpa using length_foldl_ainsert_lt ps [] (Or.inr hdup)

/-- Witness for C10: two pairs sharing the key `Bool true`; the stream
parses, the second value overwrites the first, and the decoded map has 1
entry, fewer than the declared 2. -/
theorem claim_C10_witness :
    (exDupFields.length ≤ 255 ∧ ¬ (akeys exDupFields).Nodup) ∧
    DataElement.read (2 :: byte exDupFields.length :: writeFields exDupFields) =
      .ok (.Fields (exDupFields.foldl (fun m p => ainsert m p.1 p.2) []), []) ∧
    (exDupFields.foldl (fun m p => ainsert m p.1 p.2) []).length <
      exDupFields.length := by
  have hlen : exDupFields.length ≤ 255 := by
    rw [exDupFields]
    norm_num
  have hdup : ¬ (akeys exDupFields).Nodup := by
    rw [exDupFields]
    simp [akeys]
  have hmem : ∀ p ∈ exDupFields,
      p.1.WF ∧ p.2.wfkeys = true ∧ p.2.wf255 = true := by
    intro p hp
    rw [exDupFields] at hp
    rcases List.mem_cons.mp hp with h | h
    · subst h
      exact ⟨trivial, by rw [DataElement.wfkeys], by rw [DataElement.wf255]⟩
    · rcases List.mem_cons.mp h with h2 | h2
      · subst h2
        exact ⟨trivial, by rw [DataElement.wfkeys], by rw [DataElement.wf255]⟩
      · cases h2
  exact ⟨⟨hlen, hdup⟩, claim_C10 exDupFields hlen hdup hmem⟩

end Xelis

